import Mathlib

/-!
# Verification of the Crank–Nicolson 1D heat-equation engine

Shallow embedding of the numerical core of `src/HeatEquation1D.ipynb`.
The notebook builds two tridiagonal coefficient matrices

  A = np.diag([2*(1+lbd)]*(nx-2), k=0) + np.diag([-lbd]*(nx-3), k=1)
                                       + np.diag([-lbd]*(nx-3), k=-1)
  B = np.diag([2*(1-lbd)]*(nx-2), k=0) + np.diag([lbd]*(nx-3), k=1)
                                       + np.diag([lbd]*(nx-3), k=-1)

fixes the boundary columns of the field buffer `u` (`u[:,0] = BCs[0]`,
`u[:,-1] = BCs[1]`, `u[0,1:-1] = u0`) and advances in time by

  for l in range(nt-1):
      b = u[l,1:-1]
      b = B.dot(b)
      sol = np.linalg.solve(A, b)
      u[l+1,1:-1] = sol

Real arithmetic is idealised over `ℚ` (exact arithmetic); `np.linalg.solve`
is modelled as the exact solution of the linear system, via the adjugate.
`n` stands for the interior point count `nx - 2`.
-/

namespace HeatEq

/-- Embedding of `np.diag([c]*(n-|k|), k)` restricted to the square size `n`
actually used by the notebook: the `n × n` matrix whose entry at `(i, j)` is
`c` when `j = i + k` and `0` elsewhere. -/
def npdiag (c : ℚ) (k : ℤ) (n : ℕ) : Matrix (Fin n) (Fin n) ℚ :=
  Matrix.of fun i j => if ((j : ℕ) : ℤ) = ((i : ℕ) : ℤ) + k then c else 0

/-- The common shape of the two notebook matrices: diagonal value `d`
(`np.diag` with `k = 0`) plus off-diagonal value `c` on `k = 1` and `k = -1`. -/
def tri (d c : ℚ) (n : ℕ) : Matrix (Fin n) (Fin n) ℚ :=
  npdiag d 0 n + npdiag c 1 n + npdiag c (-1) n

/-- The implicit-side coefficient matrix `A` of the notebook (size `n = nx-2`). -/
def A (lbd : ℚ) (n : ℕ) : Matrix (Fin n) (Fin n) ℚ :=
  tri (2 * (1 + lbd)) (-lbd) n

/-- The explicit-side coefficient matrix `B` of the notebook (size `n = nx-2`). -/
def B (lbd : ℚ) (n : ℕ) : Matrix (Fin n) (Fin n) ℚ :=
  tri (2 * (1 - lbd)) lbd n

/-- Exact-arithmetic model of `np.linalg.solve M b`: `M⁻¹ *ᵥ b`, computed as
`(det M)⁻¹ • (adjugate M *ᵥ b)`.  When `M.det ≠ 0` this is the unique solution
of `M *ᵥ x = b` (see `mulVec_linSolve`). -/
def linSolve {n : ℕ} (M : Matrix (Fin n) (Fin n) ℚ) (b : Fin n → ℚ) : Fin n → ℚ :=
  M.det⁻¹ • M.adjugate.mulVec b

/-- A full snapshot (row of `u`) from boundary values and interior values:
entry `0` is `BCs[0]`, entry `n+1` is `BCs[1]`, entries `1..n` are the
interior vector.  This mirrors the column assignments `u[:,0] = BCs[0]`,
`u[:,-1] = BCs[1]` together with an interior-slice write `u[l,1:-1] = v`. -/
def embed {n : ℕ} (bcl bcr : ℚ) (v : Fin n → ℚ) : Fin (n + 2) → ℚ :=
  fun j =>
    if h0 : (j : ℕ) = 0 then bcl
    else if h1 : (j : ℕ) = n + 1 then bcr
    else v ⟨(j : ℕ) - 1, by have := j.isLt; omega⟩

/-- The interior slice `w[1:-1]` of a snapshot. -/
def interior {n : ℕ} (w : Fin (n + 2) → ℚ) : Fin n → ℚ :=
  fun i => w ⟨(i : ℕ) + 1, by have := i.isLt; omega⟩

/-- The field buffer of the notebook, one snapshot per time index:
snapshot `0` is `u0` with the boundary columns, and snapshot `l+1`
has interior `np.linalg.solve(A, B.dot(u[l,1:-1]))`, with the boundary
columns fixed once and for all. -/
def u (lbd : ℚ) (n : ℕ) (bcl bcr : ℚ) (u0 : Fin n → ℚ) : ℕ → Fin (n + 2) → ℚ
  | 0 => embed bcl bcr u0
  | l + 1 =>
    embed bcl bcr (linSolve (A lbd n) ((B lbd n).mulVec (interior (u lbd n bcl bcr u0 l))))

/-- Grid constant of the notebook: `nx = 501` space grid points. -/
def nx : ℕ := 501

/-- Grid constant of the notebook: `nt = 501` time grid points. -/
def nt : ℕ := 501

/-- Length of the space domain: `J = np.linspace(0, 1, nx)` spans `[0, 1]`. -/
def space_length : ℚ := 1

/-- Length of the declared time domain: `L = np.linspace(0, 10, nt)` spans
`[0, 10]`. -/
def total_time : ℚ := 10

/-- Diffusion coefficient of the notebook: `D = 1`. -/
def D : ℚ := 1

/-- The notebook's `dx = 1/(nx-1)`. -/
def dx : ℚ := 1 / ((nx : ℚ) - 1)

/-- The notebook's `dt = 1/(nt-1)`. -/
def dt : ℚ := 1 / ((nt : ℚ) - 1)

/-- The notebook's `lbd = (D*dt)/(dx**2)`. -/
def lbd : ℚ := D * dt / dx ^ 2

/-- Interior point count: the matrices are `(nx-2) × (nx-2)`. -/
def interior_count : ℕ := nx - 2

/-- Number of time steps: the loop runs `for l in range(nt-1)`. -/
def step_count : ℕ := nt - 1

/-- Modelled from the spec: the notebook delegates the solve to
`np.linalg.solve` and has no error handling of its own (a singular matrix
raises an exception that propagates and aborts the loop), so the spec's
`LinearSolveError` carrying the failing step index has no counterpart in the
source.  Following §4.4/§7, the stepper is modelled as returning either the
next snapshot or `Except.error l` where `l` is the index of the step whose
solve failed; in exact arithmetic a solve fails precisely when `A` is
singular (`det = 0`).  Later steps after a failure keep returning the
original error: nothing further is written and nothing is retried. -/
def runE (lbd : ℚ) (n : ℕ) (bcl bcr : ℚ) (u0 : Fin n → ℚ) :
    ℕ → Except ℕ (Fin (n + 2) → ℚ)
  | 0 => Except.ok (embed bcl bcr u0)
  | l + 1 =>
    match runE lbd n bcl bcr u0 l with
    | Except.error e => Except.error e
    | Except.ok w =>
      if (A lbd n).det = 0 then Except.error l
      else Except.ok (embed bcl bcr (linSolve (A lbd n) ((B lbd n).mulVec (interior w))))

lemma tri_entry (d c : ℚ) (n : ℕ) (i j : Fin n) :
    tri d c n i j =
      if (i : ℕ) = (j : ℕ) then d
      else if (j : ℕ) = (i : ℕ) + 1 ∨ (i : ℕ) = (j : ℕ) + 1 then c
      else 0 := by
  simp only [tri, npdiag, Matrix.add_apply, Matrix.of_apply]
  by_cases h0 : (i : ℕ) = (j : ℕ)
  · rw [if_pos h0, if_pos (show ((j : ℕ) : ℤ) = ((i : ℕ) : ℤ) + 0 by omega),
      if_neg (show ¬((j : ℕ) : ℤ) = ((i : ℕ) : ℤ) + 1 by omega),
      if_neg (show ¬((j : ℕ) : ℤ) = ((i : ℕ) : ℤ) + (-1) by omega)]
    ring
  · rw [if_neg h0]
    by_cases h1 : (j : ℕ) = (i : ℕ) + 1
    · rw [if_pos (Or.inl h1), if_neg (show ¬((j : ℕ) : ℤ) = ((i : ℕ) : ℤ) + 0 by omega),
        if_pos (show ((j : ℕ) : ℤ) = ((i : ℕ) : ℤ) + 1 by omega),
        if_neg (show ¬((j : ℕ) : ℤ) = ((i : ℕ) : ℤ) + (-1) by omega)]
      ring
    · by_cases h2 : (i : ℕ) = (j : ℕ) + 1
      · rw [if_pos (Or.inr h2), if_neg (show ¬((j : ℕ) : ℤ) = ((i : ℕ) : ℤ) + 0 by omega),
          if_neg (show ¬((j : ℕ) : ℤ) = ((i : ℕ) : ℤ) + 1 by omega),
          if_pos (show ((j : ℕ) : ℤ) = ((i : ℕ) : ℤ) + (-1) by omega)]
        ring
      · rw [if_neg (not_or.mpr ⟨h1, h2⟩),
          if_neg (show ¬((j : ℕ) : ℤ) = ((i : ℕ) : ℤ) + 0 by omega),
          if_neg (show ¬((j : ℕ) : ℤ) = ((i : ℕ) : ℤ) + 1 by omega),
          if_neg (show ¬((j : ℕ) : ℤ) = ((i : ℕ) : ℤ) + (-1) by omega)]
        ring

lemma A_entry (lbd : ℚ) (n : ℕ) (i j : Fin n) :
    A lbd n i j =
      if (i : ℕ) = (j : ℕ) then 2 * (1 + lbd)
      else if (j : ℕ) = (i : ℕ) + 1 ∨ (i : ℕ) = (j : ℕ) + 1 then -lbd
      else 0 :=
  tri_entry _ _ _ _ _

lemma B_entry (lbd : ℚ) (n : ℕ) (i j : Fin n) :
    B lbd n i j =
      if (i : ℕ) = (j : ℕ) then 2 * (1 - lbd)
      else if (j : ℕ) = (i : ℕ) + 1 ∨ (i : ℕ) = (j : ℕ) + 1 then lbd
      else 0 :=
  tri_entry _ _ _ _ _

/-- C2: for every `λ` and every `interior_count = n ≥ 1`, the diagonal of
`A` is `2(1+λ)`, its in-range first off-diagonals are `-λ`, the diagonal of
`B` is `2(1-λ)`, its in-range first off-diagonals are `λ`, and every other
entry of both matrices is zero. -/
theorem claim_C2 (lbd : ℚ) (n : ℕ) (hn : 1 ≤ n) (i j : Fin n) :
    (A lbd n i j =
      if (i : ℕ) = (j : ℕ) then 2 * (1 + lbd)
      else if (j : ℕ) = (i : ℕ) + 1 ∨ (i : ℕ) = (j : ℕ) + 1 then -lbd
      else 0) ∧
    (B lbd n i j =
      if (i : ℕ) = (j : ℕ) then 2 * (1 - lbd)
      else if (j : ℕ) = (i : ℕ) + 1 ∨ (i : ℕ) = (j : ℕ) + 1 then lbd
      else 0) :=
  ⟨A_entry lbd n i j, B_entry lbd n i j⟩

theorem claim_C2_witness :
    1 ≤ 2 ∧
    ((A 3 2 0 1 =
      if ((0 : Fin 2) : ℕ) = ((1 : Fin 2) : ℕ) then 2 * (1 + 3)
      else if ((1 : Fin 2) : ℕ) = ((0 : Fin 2) : ℕ) + 1 ∨
          ((0 : Fin 2) : ℕ) = ((1 : Fin 2) : ℕ) + 1 then -3
      else 0) ∧
    (B 3 2 0 1 =
      if ((0 : Fin 2) : ℕ) = ((1 : Fin 2) : ℕ) then 2 * (1 - 3)
      else if ((1 : Fin 2) : ℕ) = ((0 : Fin 2) : ℕ) + 1 ∨
          ((0 : Fin 2) : ℕ) = ((1 : Fin 2) : ℕ) + 1 then 3
      else 0)) :=
  ⟨by norm_num, claim_C2 3 2 (by norm_num) 0 1⟩

/-- C3 counterexample: in the executed construction the corner entries are
zero: at `λ = 1`, `n = 3` both `A[0][n-1]` and `B[0][n-1]` are `0`, refuting
the claimed wrap-around (circulant) nonzero corners. -/
theorem claim_C3_cex : A 1 3 0 2 = 0 ∧ B 1 3 0 2 = 0 := by
  constructor
  · rw [A_entry, if_neg (by decide), if_neg (by decide)]
  · rw [B_entry, if_neg (by decide), if_neg (by decide)]

/-- C3 amended: every entry of `A` and `B` off the three central diagonals is
zero; in particular, for `n ≥ 3` the corner entries `[0][n-1]` and `[n-1][0]`
vanish: the executed construction is plainly tridiagonal (Dirichlet), and the
wrap-around entries appear only in the notebook's illustrative markdown. -/
theorem claim_C3_amended (lbd : ℚ) (n : ℕ) (i j : Fin n)
    (h : (i : ℕ) + 2 ≤ (j : ℕ) ∨ (j : ℕ) + 2 ≤ (i : ℕ)) :
    A lbd n i j = 0 ∧ B lbd n i j = 0 := by
  rw [A_entry, B_entry]
  constructor <;> { rw [if_neg (by omega), if_neg (by omega)] }

theorem claim_C3_amended_witness :
    (((0 : Fin 3) : ℕ) + 2 ≤ ((2 : Fin 3) : ℕ) ∨
      ((2 : Fin 3) : ℕ) + 2 ≤ ((0 : Fin 3) : ℕ)) ∧
    (A 5 3 0 2 = 0 ∧ B 5 3 0 2 = 0) :=
  ⟨by decide, claim_C3_amended 5 3 0 2 (by decide)⟩

lemma sum_ite_val_fun {n : ℕ} (m : ℕ) (h : m < n) (f : Fin n → ℚ) :
    (∑ j : Fin n, if (j : ℕ) = m then f j else 0) = f ⟨m, h⟩ := by
  rw [Finset.sum_eq_single (⟨m, h⟩ : Fin n)]
  · rw [if_pos rfl]
  · intro b _ hb
    rw [if_neg fun hc => hb (Fin.ext hc)]
  · intro habs
    exact absurd (Finset.mem_univ _) habs

lemma sum_ite_eq_nat {n : ℕ} (m : ℕ) (c : ℚ) :
    (∑ j : Fin n, if (j : ℕ) = m then c else 0) = if m < n then c else 0 := by
  by_cases h : m < n
  · rw [if_pos h, sum_ite_val_fun m h fun _ => c]
  · rw [if_neg h]
    refine Finset.sum_eq_zero fun j _ => if_neg fun hc => h ?_
    exact hc ▸ j.isLt

lemma A_offdiag_abs {lbd : ℚ} (hl : 0 ≤ lbd) {n : ℕ} (i j : Fin n) (hne : j ≠ i) :
    |A lbd n i j| =
      (if (j : ℕ) = (i : ℕ) + 1 then lbd else 0) +
      (if (i : ℕ) = (j : ℕ) + 1 then lbd else 0) := by
  rw [A_entry, if_neg (show ¬(i : ℕ) = (j : ℕ) from fun hc => hne (Fin.ext hc.symm))]
  by_cases h1 : (j : ℕ) = (i : ℕ) + 1
  · rw [if_pos (Or.inl h1), if_pos h1, if_neg (by omega), abs_neg,
      abs_of_nonneg hl, add_zero]
  · by_cases h2 : (i : ℕ) = (j : ℕ) + 1
    · rw [if_pos (Or.inr h2), if_neg h1, if_pos h2, abs_neg,
        abs_of_nonneg hl, zero_add]
    · rw [if_neg (not_or.mpr ⟨h1, h2⟩), if_neg h1, if_neg h2, abs_zero, add_zero]

lemma A_row_sum_abs_le {lbd : ℚ} (hl : 0 ≤ lbd) {n : ℕ} (i : Fin n) :
    ∑ j in Finset.univ.erase i, |A lbd n i j| ≤ 2 * lbd := by
  have hstep :
      ∑ j in Finset.univ.erase i, |A lbd n i j| =
        ∑ j in Finset.univ.erase i,
          ((if (j : ℕ) = (i : ℕ) + 1 then lbd else 0) +
            (if (i : ℕ) = (j : ℕ) + 1 then lbd else 0)) :=
    Finset.sum_congr rfl fun j hj => A_offdiag_abs hl i j (Finset.ne_of_mem_erase hj)
  have hext :
      ∑ j in Finset.univ.erase i,
          ((if (j : ℕ) = (i : ℕ) + 1 then lbd else 0) +
            (if (i : ℕ) = (j : ℕ) + 1 then lbd else 0)) =
        ∑ j : Fin n,
          ((if (j : ℕ) = (i : ℕ) + 1 then lbd else 0) +
            (if (i : ℕ) = (j : ℕ) + 1 then lbd else 0)) := by
    refine Finset.sum_subset (Finset.subset_univ _) fun j _ hj => ?_
    have hji : j = i := by
      by_contra hne
      exact hj (Finset.mem_erase.mpr ⟨hne, Finset.mem_univ _⟩)
    subst hji
    norm_num
  have h1 : (∑ j : Fin n, if (j : ℕ) = (i : ℕ) + 1 then lbd else 0) ≤ lbd := by
    rw [sum_ite_eq_nat]
    split_ifs
    · exact le_rfl
    · exact hl
  have h2 : (∑ j : Fin n, if (i : ℕ) = (j : ℕ) + 1 then lbd else 0) ≤ lbd := by
    by_cases hi : 1 ≤ (i : ℕ)
    · have hcongr :
          (∑ j : Fin n, if (i : ℕ) = (j : ℕ) + 1 then lbd else 0) =
            ∑ j : Fin n, if (j : ℕ) = (i : ℕ) - 1 then lbd else 0 := by
        refine Finset.sum_congr rfl fun j _ => ?_
        by_cases h : (i : ℕ) = (j : ℕ) + 1
        · rw [if_pos h, if_pos (by omega)]
        · rw [if_neg h, if_neg (by omega)]
      rw [hcongr, sum_ite_eq_nat]
      split_ifs
      · exact le_rfl
      · exact hl
    · have hz : (∑ j : Fin n, if (i : ℕ) = (j : ℕ) + 1 then lbd else 0) = 0 :=
        Finset.sum_eq_zero fun j _ => if_neg (by omega)
      rw [hz]
      exact hl
  calc ∑ j in Finset.univ.erase i, |A lbd n i j|
      = ∑ j : Fin n,
          ((if (j : ℕ) = (i : ℕ) + 1 then lbd else 0) +
            (if (i : ℕ) = (j : ℕ) + 1 then lbd else 0)) := by rw [hstep, hext]
    _ = (∑ j : Fin n, if (j : ℕ) = (i : ℕ) + 1 then lbd else 0) +
          ∑ j : Fin n, if (i : ℕ) = (j : ℕ) + 1 then lbd else 0 := Finset.sum_add_distrib
    _ ≤ lbd + lbd := add_le_add h1 h2
    _ = 2 * lbd := by ring

/-- Any strictly diagonally dominant rational matrix has nonzero determinant. -/
lemma det_ne_zero_of_dominant {n : ℕ} (M : Matrix (Fin n) (Fin n) ℚ)
    (h : ∀ i, ∑ j in Finset.univ.erase i, |M i j| < |M i i|) : M.det ≠ 0 := by
  intro hdet
  obtain ⟨v, hv, hmv⟩ := Matrix.exists_mulVec_eq_zero_iff.mpr hdet
  obtain ⟨j0, hj0⟩ := Function.ne_iff.mp hv
  obtain ⟨i, -, hi⟩ :=
    Finset.exists_max_image Finset.univ (fun k => |v k|) ⟨j0, Finset.mem_univ _⟩
  have hvi : 0 < |v i| :=
    lt_of_lt_of_le (abs_pos.mpr hj0) (hi j0 (Finset.mem_univ _))
  have hrow : ∑ j, M i j * v j = 0 := by
    have := congrFun hmv i
    simpa [Matrix.mulVec, Matrix.dotProduct] using this
  have hsplit : M i i * v i + ∑ j in Finset.univ.erase i, M i j * v j = 0 :=
    (Finset.add_sum_erase Finset.univ (fun j => M i j * v j) (Finset.mem_univ i)).trans hrow
  have habs : |M i i| * |v i| ≤ (∑ j in Finset.univ.erase i, |M i j|) * |v i| := by
    calc |M i i| * |v i| = |M i i * v i| := (abs_mul _ _).symm
      _ = |∑ j in Finset.univ.erase i, M i j * v j| := by
          rw [eq_neg_of_add_eq_zero_left hsplit, abs_neg]
      _ ≤ ∑ j in Finset.univ.erase i, |M i j * v j| :=
          Finset.abs_sum_le_sum_abs _ _
      _ ≤ ∑ j in Finset.univ.erase i, |M i j| * |v i| :=
          Finset.sum_le_sum fun j _ => by
            rw [abs_mul]
            exact mul_le_mul_of_nonneg_left (hi j (Finset.mem_univ _)) (abs_nonneg _)
      _ = (∑ j in Finset.univ.erase i, |M i j|) * |v i| := (Finset.sum_mul _ _ _).symm
  have hlt := mul_lt_mul_of_pos_right (h i) hvi
  linarith

lemma A_diag (lbd : ℚ) (n : ℕ) (i : Fin n) : A lbd n i i = 2 * (1 + lbd) := by
  rw [A_entry, if_pos rfl]

lemma A_dominant {lbd : ℚ} (hl : 0 < lbd) (n : ℕ) (i : Fin n) :
    ∑ j in Finset.univ.erase i, |A lbd n i j| < |A lbd n i i| := by
  have hle : ∑ j in Finset.univ.erase i, |A lbd n i j| ≤ 2 * lbd :=
    A_row_sum_abs_le (by linarith) i
  have hd : |A lbd n i i| = 2 * (1 + lbd) := by
    rw [A_diag, abs_of_nonneg (by linarith)]
  rw [hd]
  linarith

lemma A_det_ne_zero {lbd : ℚ} (hl : 0 < lbd) (n : ℕ) : (A lbd n).det ≠ 0 :=
  det_ne_zero_of_dominant _ (A_dominant hl n)

lemma A_isSymm (lbd : ℚ) (n : ℕ) : (A lbd n).IsSymm := by
  refine Matrix.ext fun i j => ?_
  rw [Matrix.transpose_apply, A_entry, A_entry]
  by_cases h0 : (i : ℕ) = (j : ℕ)
  · rw [if_pos h0, if_pos h0.symm]
  · rw [if_neg h0, if_neg fun hc => h0 hc.symm]
    by_cases h1 : (j : ℕ) = (i : ℕ) + 1 ∨ (i : ℕ) = (j : ℕ) + 1
    · rw [if_pos h1, if_pos h1.symm]
    · rw [if_neg h1, if_neg fun hc => h1 hc.symm]

lemma B_isSymm (lbd : ℚ) (n : ℕ) : (B lbd n).IsSymm := by
  refine Matrix.ext fun i j => ?_
  rw [Matrix.transpose_apply, B_entry, B_entry]
  by_cases h0 : (i : ℕ) = (j : ℕ)
  · rw [if_pos h0, if_pos h0.symm]
  · rw [if_neg h0, if_neg fun hc => h0 hc.symm]
    by_cases h1 : (j : ℕ) = (i : ℕ) + 1 ∨ (i : ℕ) = (j : ℕ) + 1
    · rw [if_pos h1, if_pos h1.symm]
    · rw [if_neg h1, if_neg fun hc => h1 hc.symm]

/-- C4: for every `λ > 0` and `n ≥ 1`, both built matrices are symmetric and
`A` is strictly diagonally dominant: in every row the absolute value of the
diagonal entry strictly exceeds the sum of absolute values of the
off-diagonal entries. -/
theorem claim_C4 (lbd : ℚ) (n : ℕ) (hl : 0 < lbd) (hn : 1 ≤ n) :
    (A lbd n).IsSymm ∧ (B lbd n).IsSymm ∧
      ∀ i : Fin n, ∑ j in Finset.univ.erase i, |A lbd n i j| < |A lbd n i i| :=
  ⟨A_isSymm lbd n, B_isSymm lbd n, A_dominant hl n⟩

theorem claim_C4_witness :
    (0 : ℚ) < 1 ∧ 1 ≤ 2 ∧
      ((A 1 2).IsSymm ∧ (B 1 2).IsSymm ∧ |A 1 2 0 1| < |A 1 2 0 0|) := by
  obtain ⟨hA, hB, hdom⟩ := claim_C4 1 2 (by norm_num) (by norm_num)
  refine ⟨by norm_num, by norm_num, hA, hB, ?_⟩
  have h := hdom 0
  have hset : (Finset.univ.erase (0 : Fin 2)) = {1} := by decide
  rwa [hset, Finset.sum_singleton] at h

/-- When the matrix is nonsingular, `linSolve` really solves the system. -/
lemma mulVec_linSolve {n : ℕ} (M : Matrix (Fin n) (Fin n) ℚ) (hdet : M.det ≠ 0)
    (b : Fin n → ℚ) : M.mulVec (linSolve M b) = b := by
  unfold linSolve
  rw [Matrix.mulVec_smul, Matrix.mulVec_mulVec, Matrix.mul_adjugate,
    Matrix.smul_mulVec_assoc, Matrix.one_mulVec, smul_smul,
    inv_mul_cancel₀ hdet, one_smul]

lemma linSolve_zero {n : ℕ} (M : Matrix (Fin n) (Fin n) ℚ) : linSolve M 0 = 0 := by
  unfold linSolve
  rw [Matrix.mulVec_zero, smul_zero]

lemma embed_mk {n : ℕ} (bcl bcr : ℚ) (v : Fin n → ℚ) (m : ℕ) (hm : m < n + 2) :
    embed bcl bcr v ⟨m, hm⟩ =
      if h0 : m = 0 then bcl
      else if h1 : m = n + 1 then bcr
      else v ⟨m - 1, by omega⟩ := rfl

lemma interior_embed {n : ℕ} (bcl bcr : ℚ) (v : Fin n → ℚ) :
    interior (embed bcl bcr v) = v := by
  funext i
  have hi := i.isLt
  show embed bcl bcr v ⟨(i : ℕ) + 1, by omega⟩ = v i
  rw [embed_mk, dif_neg (by omega), dif_neg (by omega)]
  exact congrArg v (Fin.ext (Nat.add_sub_cancel ..))

/-- Interior slice of one time step: the new interiors solve the implicit
system whose right-hand side is the explicit matrix applied to the previous
interiors. -/
lemma step_solves {lbd : ℚ} (hl : 0 < lbd) (n : ℕ) (bcl bcr : ℚ)
    (u0 : Fin n → ℚ) (l : ℕ) :
    (A lbd n).mulVec (interior (u lbd n bcl bcr u0 (l + 1))) =
      (B lbd n).mulVec (interior (u lbd n bcl bcr u0 l)) := by
  rw [u, interior_embed]
  exact mulVec_linSolve _ (A_det_ne_zero hl n) _

/-- C1: at every step, the interior values written into snapshot `l+1` are
exactly the solution `x` of `A · x = b` with `b = B · v`, `v` the interior
values of snapshot `l` (stated for the notebook's regime `λ > 0`, where `A`
is nonsingular and the solve succeeds). -/
theorem claim_C1 (lbd : ℚ) (n : ℕ) (bcl bcr : ℚ) (u0 : Fin n → ℚ)
    (hl : 0 < lbd) (l : ℕ) :
    (A lbd n).mulVec (interior (u lbd n bcl bcr u0 (l + 1))) =
      (B lbd n).mulVec (interior (u lbd n bcl bcr u0 l)) :=
  step_solves hl n bcl bcr u0 l

theorem claim_C1_witness :
    (0 : ℚ) < 1 ∧
      (A 1 1).mulVec (interior (u 1 1 0 0 (fun _ => 1) 1)) =
        (B 1 1).mulVec (interior (u 1 1 0 0 (fun _ => 1) 0)) :=
  ⟨by norm_num, claim_C1 1 1 0 0 (fun _ => 1) (by norm_num) 0⟩

/-- C5: the first and last entry of every snapshot are exactly the left and
right boundary values; a step writes only the interior slice of the new
snapshot. -/
theorem claim_C5 (lbd : ℚ) (n : ℕ) (bcl bcr : ℚ) (u0 : Fin n → ℚ) (l : ℕ) :
    u lbd n bcl bcr u0 l ⟨0, by omega⟩ = bcl ∧
      u lbd n bcl bcr u0 l ⟨n + 1, by omega⟩ = bcr := by
  have hgen : ∀ v : Fin n → ℚ,
      embed bcl bcr v ⟨0, by omega⟩ = bcl ∧
        embed (n := n) bcl bcr v ⟨n + 1, by omega⟩ = bcr := by
    intro v
    constructor
    · rw [embed_mk, dif_pos rfl]
    · rw [embed_mk, dif_neg (by omega), dif_pos rfl]
  cases l with
  | zero => rw [u]; exact hgen u0
  | succ m => rw [u]; exact hgen _

/-- C7: with zero boundary values and zero initial interior field, every
snapshot of the run is the zero field. -/
theorem claim_C7 (lbd : ℚ) (n : ℕ) (l : ℕ) :
    ∀ j : Fin (n + 2), u lbd n 0 0 (fun _ => 0) l j = 0 := by
  have hembed0 : ∀ j : Fin (n + 2), embed (n := n) 0 0 (fun _ => 0) j = 0 := by
    intro j
    unfold embed
    split_ifs <;> rfl
  induction l with
  | zero =>
    intro j
    rw [u]
    exact hembed0 j
  | succ m ih =>
    intro j
    have hint : interior (u lbd n 0 0 (fun _ => 0) m) = fun _ => (0 : ℚ) := by
      funext i
      exact ih _
    rw [u, hint]
    have hz : (fun _ : Fin n => (0 : ℚ)) = (0 : Fin n → ℚ) := rfl
    rw [hz, Matrix.mulVec_zero, linSolve_zero]
    exact hembed0 j

/-- C10: the interior values of every snapshot are independent of the
boundary values: two runs differing only in the boundary values have
identical interior slices at every time index. -/
theorem claim_C10 (lbd : ℚ) (n : ℕ) (bcl bcr bcl2 bcr2 : ℚ)
    (u0 : Fin n → ℚ) (l : ℕ) :
    interior (u lbd n bcl bcr u0 l) = interior (u lbd n bcl2 bcr2 u0 l) := by
  induction l with
  | zero => rw [u, u, interior_embed, interior_embed]
  | succ m ih => rw [u, u, interior_embed, interior_embed, ih]

lemma sum_mulVec {n : ℕ} (M : Matrix (Fin n) (Fin n) ℚ) (x : Fin n → ℚ) :
    ∑ i, (M.mulVec x) i = ∑ j, (∑ i, M i j) * x j := by
  simp only [Matrix.mulVec, Matrix.dotProduct]
  rw [Finset.sum_comm]
  exact Finset.sum_congr rfl fun j _ => (Finset.sum_mul _ _ _).symm

lemma tri_col_sum (d c : ℚ) {n : ℕ} (j : Fin n) :
    (∑ i, tri d c n i j) =
      d + (if 1 ≤ (j : ℕ) then c else 0) + (if (j : ℕ) + 1 < n then c else 0) := by
  have hj := j.isLt
  have hpt : ∀ i : Fin n, tri d c n i j =
      (if (i : ℕ) = (j : ℕ) then d else 0) +
        (if 1 ≤ (j : ℕ) then (if (i : ℕ) = (j : ℕ) - 1 then c else 0) else 0) +
        (if (i : ℕ) = (j : ℕ) + 1 then c else 0) := by
    intro i
    rw [tri_entry]
    by_cases hj1 : 1 ≤ (j : ℕ)
    · rw [if_pos hj1]
      by_cases h0 : (i : ℕ) = (j : ℕ)
      · rw [if_pos (show (i : ℕ) = (j : ℕ) from h0), if_pos h0,
          if_neg (show ¬(i : ℕ) = (j : ℕ) - 1 by omega),
          if_neg (show ¬(i : ℕ) = (j : ℕ) + 1 by omega)]
        ring
      · rw [if_neg h0, if_neg h0]
        by_cases h1 : (j : ℕ) = (i : ℕ) + 1
        · rw [if_pos (Or.inl h1), if_pos (show (i : ℕ) = (j : ℕ) - 1 by omega),
            if_neg (show ¬(i : ℕ) = (j : ℕ) + 1 by omega)]
          ring
        · by_cases h2 : (i : ℕ) = (j : ℕ) + 1
          · rw [if_pos (Or.inr h2), if_neg (show ¬(i : ℕ) = (j : ℕ) - 1 by omega),
              if_pos h2]
            ring
          · rw [if_neg (not_or.mpr ⟨h1, h2⟩),
              if_neg (show ¬(i : ℕ) = (j : ℕ) - 1 by omega), if_neg h2]
            ring
    · rw [if_neg hj1]
      by_cases h0 : (i : ℕ) = (j : ℕ)
      · rw [if_pos (show (i : ℕ) = (j : ℕ) from h0), if_pos h0,
          if_neg (show ¬(i : ℕ) = (j : ℕ) + 1 by omega)]
        ring
      · rw [if_neg h0, if_neg h0]
        by_cases h2 : (i : ℕ) = (j : ℕ) + 1
        · rw [if_pos (Or.inr h2), if_pos h2]
          ring
        · rw [if_neg (not_or.mpr ⟨show ¬(j : ℕ) = (i : ℕ) + 1 by omega, h2⟩), if_neg h2]
          ring
  rw [Finset.sum_congr rfl fun i _ => hpt i, Finset.sum_add_distrib,
    Finset.sum_add_distrib, sum_ite_eq_nat, if_pos hj,
    sum_ite_eq_nat ((j : ℕ) + 1) c]
  congr 1
  congr 1
  by_cases hj1 : 1 ≤ (j : ℕ)
  · simp only [if_pos hj1]
    rw [sum_ite_eq_nat, if_pos (by omega)]
  · simp only [if_neg hj1]
    exact Finset.sum_const_zero

lemma sum_tri_mulVec (d c : ℚ) {n : ℕ} (hn : 1 ≤ n) (x : Fin n → ℚ) :
    ∑ i, ((tri d c n).mulVec x) i =
      (d + 2 * c) * (∑ i, x i) - c * x ⟨0, by omega⟩ - c * x ⟨n - 1, by omega⟩ := by
  rw [sum_mulVec]
  have hpt : ∀ j : Fin n, (∑ i, tri d c n i j) * x j =
      d * x j + (c * x j - (if (j : ℕ) = 0 then c * x j else 0)) +
        (c * x j - (if (j : ℕ) = n - 1 then c * x j else 0)) := by
    intro j
    have hj := j.isLt
    rw [tri_col_sum]
    by_cases h0 : (j : ℕ) = 0
    · by_cases hl : (j : ℕ) = n - 1
      · rw [if_neg (by omega), if_neg (by omega), if_pos h0, if_pos hl]
        ring
      · rw [if_neg (by omega), if_pos (by omega), if_pos h0, if_neg hl]
        ring
    · by_cases hl : (j : ℕ) = n - 1
      · rw [if_pos (by omega), if_neg (by omega), if_neg h0, if_pos hl]
        ring
      · rw [if_pos (by omega), if_pos (by omega), if_neg h0, if_neg hl]
        ring
  rw [Finset.sum_congr rfl fun j _ => hpt j, Finset.sum_add_distrib,
    Finset.sum_add_distrib, Finset.sum_sub_distrib, Finset.sum_sub_distrib]
  simp only [← Finset.mul_sum]
  rw [sum_ite_val_fun 0 (by omega) fun j => c * x j,
    sum_ite_val_fun (n - 1) (by omega) fun j => c * x j]
  ring

/-- C6: evaluation of the notebook's derived grid quantities.  `dx` and
`lambda` satisfy the claimed formulas, but `dt` does not: the code computes
`dt = 1/(nt-1) = 1/step_count`, while the declared time domain
`L = np.linspace(0, 10, nt)` makes `total_time/step_count = 10/500`, so the
claimed `dt = total_time/step_count` fails on the notebook's own constants. -/
theorem claim_C6_eval :
    dx = space_length / ((interior_count : ℚ) + 1) ∧
      lbd = D * dt / dx ^ 2 ∧
      dt = 1 / (step_count : ℚ) ∧
      dt ≠ total_time / (step_count : ℚ) := by
  refine ⟨?_, rfl, ?_, ?_⟩ <;>
    norm_num [dx, dt, space_length, total_time, interior_count, step_count, nx, nt]

/-- C9: if the linear solve fails at step `l` (singular `A`, the exact
counterpart of `np.linalg.solve` raising), the run fails with an error
carrying the failing step index `l`, every later time index yields that same
error (no later snapshot is written), and the failure is never retried. -/
theorem claim_C9 (lam : ℚ) (n : ℕ) (bcl bcr : ℚ) (u0 : Fin n → ℚ) (l : ℕ)
    (w : Fin (n + 2) → ℚ) (hok : runE lam n bcl bcr u0 l = Except.ok w)
    (hfail : (A lam n).det = 0) :
    ∀ m, l < m → runE lam n bcl bcr u0 m = Except.error l := by
  have hbase : runE lam n bcl bcr u0 (l + 1) = Except.error l := by
    rw [runE, hok]
    exact if_pos hfail
  intro m
  induction m with
  | zero => intro h; exact absurd h (by omega)
  | succ k ih =>
    intro hm
    rcases Nat.lt_or_ge l k with hk | hk
    · rw [runE, ih hk]
    · have hkl : k = l := by omega
      subst hkl
      exact hbase

theorem claim_C9_witness :
    runE (-1) 1 0 0 (fun _ => 0) 0 = Except.ok (embed 0 0 (fun _ => 0)) ∧
      (A (-1) 1).det = 0 ∧
      runE (-1) 1 0 0 (fun _ => 0) 1 = Except.error 0 := by
  have hok : runE (-1) 1 0 0 (fun _ => 0) 0 = Except.ok (embed 0 0 (fun _ => 0)) := by
    rw [runE]
  have hdet : (A (-1) 1).det = 0 := by
    rw [Matrix.det_fin_one, A_entry, if_pos rfl]
    norm_num
  exact ⟨hok, hdet, claim_C9 (-1) 1 0 0 (fun _ => 0) 0 _ hok hdet 1 (by norm_num)⟩

lemma B_one_eq_zero : B 1 1 = 0 := by
  refine Matrix.ext fun i j => ?_
  have hij : (i : ℕ) = (j : ℕ) := by omega
  rw [B_entry, if_pos hij, Matrix.zero_apply]
  norm_num

/-- C8 counterexample: with `λ = 1`, `n = 1`, zero boundary values and initial
interior field `[-1]`, the interior sum increases from `-1` to `0` after one
step, refuting the claimed monotone decrease for every initial field. -/
theorem claim_C8_cex :
    ¬(∑ i, interior (u 1 1 0 0 (fun _ => -1) 1) i ≤
        ∑ i, interior (u 1 1 0 0 (fun _ => -1) 0) i) := by
  have h1 : interior (u 1 1 0 0 (fun _ => -1) 1) = 0 := by
    rw [u, interior_embed, B_one_eq_zero, Matrix.zero_mulVec, linSolve_zero]
  have h0 : interior (u 1 1 0 0 (fun _ => -1) 0) = fun _ => -1 := by
    rw [u, interior_embed]
  rw [h1, h0, Fin.sum_univ_one, Fin.sum_univ_one]
  norm_num

/-- C8 amended: for `λ > 0` and zero boundary values, the interior sum is
non-increasing across a step whenever the two edge interior values of both
the old and the new snapshot are nonnegative (as holds e.g. for the
notebook's nonnegative sine initial data in the diffusive regime); for sign-
changing fields the sum can increase, see the counterexample. -/
theorem claim_C8_amended (lam : ℚ) (n : ℕ) (u0 : Fin n → ℚ) (l : ℕ)
    (hl : 0 < lam) (hn : 1 ≤ n)
    (hv0 : 0 ≤ interior (u lam n 0 0 u0 l) ⟨0, by omega⟩)
    (hvn : 0 ≤ interior (u lam n 0 0 u0 l) ⟨n - 1, by omega⟩)
    (hx0 : 0 ≤ interior (u lam n 0 0 u0 (l + 1)) ⟨0, by omega⟩)
    (hxn : 0 ≤ interior (u lam n 0 0 u0 (l + 1)) ⟨n - 1, by omega⟩) :
    ∑ i, interior (u lam n 0 0 u0 (l + 1)) i ≤ ∑ i, interior (u lam n 0 0 u0 l) i := by
  have hstep : (A lam n).mulVec (interior (u lam n 0 0 u0 (l + 1))) =
      (B lam n).mulVec (interior (u lam n 0 0 u0 l)) := step_solves hl n 0 0 u0 l
  have hsum : ∑ i, ((A lam n).mulVec (interior (u lam n 0 0 u0 (l + 1)))) i =
      ∑ i, ((B lam n).mulVec (interior (u lam n 0 0 u0 l))) i := by
    rw [hstep]
  have hA : ∑ i, ((A lam n).mulVec (interior (u lam n 0 0 u0 (l + 1)))) i =
      (2 * (1 + lam) + 2 * -lam) * (∑ i, interior (u lam n 0 0 u0 (l + 1)) i) -
        -lam * interior (u lam n 0 0 u0 (l + 1)) ⟨0, by omega⟩ -
        -lam * interior (u lam n 0 0 u0 (l + 1)) ⟨n - 1, by omega⟩ := by
    have hAtri : A lam n = tri (2 * (1 + lam)) (-lam) n := rfl
    rw [hAtri]
    exact sum_tri_mulVec _ _ hn _
  have hB : ∑ i, ((B lam n).mulVec (interior (u lam n 0 0 u0 l))) i =
      (2 * (1 - lam) + 2 * lam) * (∑ i, interior (u lam n 0 0 u0 l) i) -
        lam * interior (u lam n 0 0 u0 l) ⟨0, by omega⟩ -
        lam * interior (u lam n 0 0 u0 l) ⟨n - 1, by omega⟩ := by
    have hBtri : B lam n = tri (2 * (1 - lam)) lam n := rfl
    rw [hBtri]
    exact sum_tri_mulVec _ _ hn _
  rw [hA, hB] at hsum
  have p1 : 0 ≤ lam * interior (u lam n 0 0 u0 l) ⟨0, by omega⟩ :=
    mul_nonneg hl.le hv0
  have p2 : 0 ≤ lam * interior (u lam n 0 0 u0 l) ⟨n - 1, by omega⟩ :=
    mul_nonneg hl.le hvn
  have p3 : 0 ≤ lam * interior (u lam n 0 0 u0 (l + 1)) ⟨0, by omega⟩ :=
    mul_nonneg hl.le hx0
  have p4 : 0 ≤ lam * interior (u lam n 0 0 u0 (l + 1)) ⟨n - 1, by omega⟩ :=
    mul_nonneg hl.le hxn
  nlinarith [hsum, p1, p2, p3, p4]

theorem claim_C8_amended_witness :
    (0 : ℚ) < 1 ∧ 1 ≤ 1 ∧
      0 ≤ interior (u 1 1 0 0 (fun _ => 1) 0) ⟨0, by norm_num⟩ ∧
      0 ≤ interior (u 1 1 0 0 (fun _ => 1) 1) ⟨0, by norm_num⟩ ∧
      ∑ i, interior (u 1 1 0 0 (fun _ => 1) 1) i ≤
        ∑ i, interior (u 1 1 0 0 (fun _ => 1) 0) i := by
  have hv : interior (u 1 1 0 0 (fun _ => 1) 0) = fun _ => 1 := by
    rw [u, interior_embed]
  have hx : interior (u 1 1 0 0 (fun _ => 1) 1) = 0 := by
    rw [u, interior_embed, B_one_eq_zero, Matrix.zero_mulVec, linSolve_zero]
  refine ⟨by norm_num, le_rfl, ?_, ?_, ?_⟩
  · rw [hv]
    norm_num
  · rw [hx]
    exact le_rfl
  · exact claim_C8_amended 1 1 (fun _ => 1) 0 (by norm_num) le_rfl
      (by rw [hv]; norm_num) (by rw [hv]; norm_num)
      (by rw [hx]; exact le_rfl) (by rw [hx]; exact le_rfl)

end HeatEq
